import Mathlib

/-!
Verification of the medida streaming-quantile core (CKMS sketch and windowed
sampler) against its natural-language specification.

The definitions below are a shallow embedding of the C++ sources:

  - src/medida/stats/ckms.h, ckms.cc  (class CKMS: the biased-quantile sketch);
  - src/medida/stats/ckms_sample.cc   (class CKMSSample::Impl: the windowed sampler).

Modelling conventions:

  - C++ `double` values are modelled as exact rationals.  All arithmetic the
    algorithms perform on them (comparison, addition, multiplication,
    division by nonzero constants, floor) is exact on the inputs exercised
    here, so the rational model agrees with the IEEE semantics on every
    concrete input used in a witness or counterexample.
  - The fields `Quantile::u = 2*error/(1-quantile)` and
    `Quantile::v = 2*error/quantile` divide by zero when `quantile` is 1
    (resp. 0); with IEEE doubles and a nonnegative `error` this produces
    `+inf` or `NaN`, and in `allowableError` such an error term never passes
    the `error < minError` test.  We model `u` and `v` as `Option` values,
    `none` standing for such an inert infinite or NaN term.
  - `std::size_t` and `int` counters are modelled as `Nat` and `Int`; no
    claim settled here exercises wrap-around (counts stay far below `2^31`).
  - `std::sort` over plain doubles produces the unique nondecreasing
    reordering; we use `List.insertionSort`, which is structurally recursive
    and hence evaluates inside the kernel.
  - The C macro `assert` in `CKMSSample::Impl::AssertValidTime` aborts the
    process when its condition fails (in builds with assertions enabled).
    Sampler operations therefore return an `Option`, with `none` modelling
    the assertion failure.
  - In `CKMS::insertBatch`, the C++ boundary test `idx - 1 == 0` is over
    `std::size_t`, where `0 - 1` wraps to `2^64 - 1`; the test is therefore
    equivalent to `idx == 1`, and is modelled as such.
-/

namespace Medida

/-- A quantile target, from struct CKMS::Quantile: a pair of a quantile `q`
and a permitted error `error`.  The derived constants `u` and `v` are defined
below. -/
structure Quantile where
  quantile : ℚ
  error : ℚ
deriving DecidableEq, Repr

/-- Derived constant `u = 2.0 * error / (1.0 - quantile)` of CKMS::Quantile.
When `quantile = 1` the C++ code divides by zero, producing an IEEE infinity
or NaN that can never pass the `error < minError` test in allowableError;
this inert value is modelled as `none`. -/
def Quantile.u (q : Quantile) : Option ℚ :=
  if q.quantile = 1 then none else some (2 * q.error / (1 - q.quantile))

/-- Derived constant `v = 2.0 * error / quantile` of CKMS::Quantile, with the
same convention for the division by zero at `quantile = 0`. -/
def Quantile.v (q : Quantile) : Option ℚ :=
  if q.quantile = 0 then none else some (2 * q.error / q.quantile)

/-- The default quantile list kDefaultQuantiles = {{0.99, 0.001}, {0.5, 0.001}}. -/
def kDefaultQuantiles : List Quantile :=
  [⟨99/100, 1/1000⟩, ⟨1/2, 1/1000⟩]

/-- A sample entry, from struct CKMS::Item: a value together with the counters
`g` and `delta` (both C++ `int`). -/
structure Item where
  value : ℚ
  g : ℤ
  delta : ℤ
deriving DecidableEq, Repr

instance : Inhabited Item := ⟨⟨0, 0, 0⟩⟩

/-- The state of a CKMS sketch, from class CKMS.  The fixed-size array
`buffer_` together with `buffer_count_` is modelled as the list of its first
`buffer_count_` entries.  `quantiles_` is the referenced quantile list. -/
structure CKMS where
  quantiles : List Quantile
  count : ℕ
  sample : List Item
  buffer : List ℚ
  min : ℚ
  max : ℚ
  sum : ℚ
  variance_m : ℚ
  variance_s : ℚ
deriving DecidableEq, Repr

namespace CKMS

/-- Construction, from CKMS::CKMS(const std::vector of Quantile):
`count_`, `buffer_` and `buffer_count_` are zero-initialised and `sample_`
is empty.  The C++ constructor leaves `min_`, `max_`, `sum_`, `variance_m_`
and `variance_s_` uninitialised; theorems that depend on those fields before
the first insert quantify over arbitrary initial contents instead of relying
on the zeroes chosen here. -/
def new (quantiles : List Quantile) : CKMS :=
  { quantiles := quantiles, count := 0, sample := [], buffer := [],
    min := 0, max := 0, sum := 0, variance_m := 0, variance_s := 0 }

/-- Reported count, from CKMS::count():  count_ + buffer_count_. -/
def countTotal (s : CKMS) : ℕ :=
  s.count + s.buffer.length

/-- Accessor CKMS::min(). -/
def minValue (s : CKMS) : ℚ := s.min

/-- Accessor CKMS::max(). -/
def maxValue (s : CKMS) : ℚ := s.max

/-- Accessor CKMS::sum(). -/
def sumValue (s : CKMS) : ℚ := s.sum

/-- Accessor CKMS::variance():  variance_s_ / (n - 1) when count() > 1, else 0. -/
def varianceValue (s : CKMS) : ℚ :=
  let n := s.countTotal
  if 1 < n then s.variance_s / ((n : ℚ) - 1) else 0

/-- Lookup of sample_[i].  All lookups performed by the algorithms are in
bounds (the C++ code would otherwise have undefined behaviour); the dummy
default only makes the function total. -/
def getItem (sample : List Item) (i : ℕ) : Item :=
  sample.getD i ⟨0, 0, 0⟩

/-- The error term the loop body of CKMS::allowableError computes for one
quantile target:  u * (size - rank) when rank is at most quantile * size,
else v * rank.  A `none` result models an infinite or NaN term, which never
lowers the running minimum. -/
def errorFor (size : ℕ) (rank : ℤ) (q : Quantile) : Option ℚ :=
  if (rank : ℚ) ≤ q.quantile * (size : ℚ) then
    q.u.map (fun u => u * ((size : ℚ) - (rank : ℚ)))
  else
    q.v.map (fun v => v * (rank : ℚ))

/-- CKMS::allowableError(int rank), parameterised by the quantile list and the
current sample size:  the minimum of the per-target error terms, starting
from size + 1. -/
def allowableErrorL (qs : List Quantile) (size : ℕ) (rank : ℤ) : ℚ :=
  qs.foldl
    (fun minError q =>
      match errorFor size rank q with
      | none => minError
      | some e => if e < minError then e else minError)
    ((size : ℚ) + 1)

/-- CKMS::allowableError on a sketch state. -/
def allowableError (s : CKMS) (rank : ℤ) : ℚ :=
  allowableErrorL s.quantiles s.sample.length rank

/-- The inner while loop of CKMS::insertBatch:
while (idx < sample_.size() and sample_[item].value < v) item = idx++. -/
def scanIdx (sample : List Item) (v : ℚ) (item idx : ℕ) : ℕ × ℕ :=
  if idx < sample.length ∧ (getItem sample item).value < v then
    scanIdx sample v idx (idx + 1)
  else
    (item, idx)
termination_by sample.length - idx
decreasing_by omega

/-- State of the batch-insertion loop of CKMS::insertBatch: the growing
sample, the merged-observation counter and the cursor variables item, idx. -/
structure BatchState where
  sample : List Item
  count : ℕ
  item : ℕ
  idx : ℕ
deriving DecidableEq, Repr

/-- One iteration of the for loop of CKMS::insertBatch, inserting one
buffered value v:  advance the cursor, step back when sample_[item].value > v,
compute delta (the test idx - 1 == 0 on size_t is equivalent to idx == 1),
emplace (v, 1, delta) at idx, increment count_, and set item = idx++. -/
def insertOne (qs : List Quantile) (st : BatchState) (v : ℚ) : BatchState :=
  let scanned := scanIdx st.sample v st.item st.idx
  let item := scanned.1
  let idx0 := scanned.2
  let idx := if v < (getItem st.sample item).value then idx0 - 1 else idx0
  let delta : ℤ :=
    if idx = 1 ∨ idx + 1 = st.sample.length then 0
    else ⌊allowableErrorL qs st.sample.length ((idx : ℤ) + 1)⌋ + 1
  { sample := st.sample.insertIdx idx ⟨v, 1, delta⟩
  , count := st.count + 1
  , item := idx
  , idx := idx + 1 }

/-- CKMS::insertBatch():  returns false on an empty buffer; otherwise sorts
the buffer, seeds an empty sample with the smallest buffered value as
(v, 1, 0), inserts the remaining buffered values in order, and clears the
buffer. -/
def insertBatch (s : CKMS) : CKMS × Bool :=
  if s.buffer.length = 0 then (s, false)
  else
    let buf := s.buffer.insertionSort (· ≤ ·)
    let seeded := s.sample.length = 0
    let sample0 := if seeded then [⟨buf.headI, 1, 0⟩] else s.sample
    let count0 := if seeded then s.count + 1 else s.count
    let rest := if seeded then buf.tail else buf
    let final := rest.foldl (insertOne s.quantiles) ⟨sample0, count0, 0, 1⟩
    ({ s with sample := final.sample, count := final.count, buffer := [] }, true)

/-- The while loop of CKMS::compress over the cursor variables next and idx:
when sample_[prev].g + sample_[next].g + sample_[next].delta is at most
allowableError(idx - 1) (with idx already incremented), add prev's g into
next and erase prev. -/
def compressLoop (qs : List Quantile) (sample : List Item) (next idx : ℕ) :
    List Item :=
  if h : idx < sample.length then
    let prev := next
    let nxt := idx
    let idx' := idx + 1
    let pi := getItem sample prev
    let ni := getItem sample nxt
    if ((pi.g + ni.g + ni.delta : ℤ) : ℚ) ≤
        allowableErrorL qs sample.length ((idx' : ℤ) - 1) then
      compressLoop qs ((sample.set nxt { ni with g := ni.g + pi.g }).eraseIdx prev)
        nxt idx'
    else
      compressLoop qs sample nxt idx'
  else sample
termination_by sample.length - idx
decreasing_by
  · simp only [List.length_eraseIdx, List.length_set]
    split <;> omega
  · omega

/-- CKMS::compress():  a single left-to-right pass, skipped when the sample
has fewer than two entries. -/
def compress (s : CKMS) : CKMS :=
  if s.sample.length < 2 then s
  else { s with sample := compressLoop s.quantiles s.sample 0 1 }

/-- Truncation of a double to int, as in static_cast to int:  rounding toward
zero. -/
def intTrunc (x : ℚ) : ℤ :=
  if x < 0 then ⌈x⌉ else ⌊x⌋

/-- The query walk of CKMS::get:  starting from the first entry, repeatedly
shift (prev, cur) one entry to the right, accumulate rankMin += prev.g, and
return prev.value at the first pair with rankMin + cur.g + cur.delta > bound;
if the walk ends, return the last entry's value. -/
def getLoop (bound : ℚ) (rankMin : ℤ) (cur : Item) : List Item → ℚ
  | [] => cur.value
  | c :: rest =>
      let rankMin' := rankMin + cur.g
      if bound < ((rankMin' + c.g + c.delta : ℤ) : ℚ) then cur.value
      else getLoop bound rankMin' c rest

/-- CKMS::get(double q):  drain the buffer with insertBatch, compress, return
0 on an empty sample, otherwise walk the sample with
desired = static_cast to int of (q * count_) and
bound = desired + allowableError(desired) / 2. -/
def get (s : CKMS) (q : ℚ) : CKMS × ℚ :=
  let s1 := (s.insertBatch).1
  let s2 := s1.compress
  if s2.sample.length = 0 then (s2, 0)
  else
    let desired : ℤ := intTrunc (q * (s2.count : ℚ))
    let bound : ℚ := (desired : ℚ) + allowableErrorL s2.quantiles s2.sample.length desired / 2
    (s2, getLoop bound 0 (s2.sample.headI) s2.sample.tail)

/-- The value CKMS::get returns. -/
def getValue (s : CKMS) (q : ℚ) : ℚ :=
  (s.get q).2

/-- CKMS::updateHistogramMetrics(double x):  the Welford update of min_,
max_, sum_, variance_m_ and variance_s_, performed before the value is
buffered (c = count() is read before buffer_count_ changes). -/
def updateHistogramMetrics (s : CKMS) (x : ℚ) : CKMS :=
  let c := s.countTotal
  let s1 :=
    if c = 0 then { s with min := x, max := x, sum := x }
    else { s with min := Min.min s.min x, max := Max.max s.max x, sum := s.sum + x }
  let newCount : ℚ := (c : ℚ) + 1
  if 1 < newCount then
    { s1 with
        variance_m := s1.variance_m + (x - s1.variance_m) / newCount,
        variance_s := s1.variance_s +
          (x - s1.variance_m) * (x - (s1.variance_m + (x - s1.variance_m) / newCount)) }
  else
    { s1 with variance_m := x }

/-- CKMS::insert(double value) in the complete variant of ckms.cc:  update the
aggregates, append the value to the buffer, and when the buffer reaches its
capacity of 500 run insertBatch followed by compress (which clears the
buffer).  The older variant of ckms.cc in the repository updates only max_
inline; its buffering logic is identical. -/
def insert (s : CKMS) (value : ℚ) : CKMS :=
  let s1 := s.updateHistogramMetrics value
  let s2 := { s1 with buffer := s1.buffer ++ [value] }
  if s2.buffer.length = 500 then ((s2.insertBatch).1).compress else s2

/-- CKMS::reset(). -/
def reset (s : CKMS) : CKMS :=
  { s with count := 0, sample := [], buffer := [],
           min := 0, max := 0, sum := 0, variance_m := 0, variance_s := 0 }

/-- A public sketch operation:  insert, get (whose state effect is draining
the buffer and compressing) or reset. -/
inductive Op where
  | ins (v : ℚ)
  | query (q : ℚ)
  | opReset
deriving DecidableEq, Repr

/-- Application of one public operation to a sketch state. -/
def applyOp (s : CKMS) : Op → CKMS
  | .ins v => s.insert v
  | .query q => (s.get q).1
  | .opReset => s.reset

/-- Application of a sequence of public operations. -/
def runOps (s : CKMS) (ops : List Op) : CKMS :=
  ops.foldl applyOp s

/-- Insertion of a whole stream of observations, in order. -/
def runInserts (s : CKMS) (vs : List ℚ) : CKMS :=
  vs.foldl insert s

/-- A sketch state reachable from a freshly constructed sketch by public
operations. -/
def Reachable (s : CKMS) : Prop :=
  ∃ qs ops, s = runOps (new qs) ops

/-- Sum of the g fields over the sample sequence. -/
def gsum (sample : List Item) : ℤ :=
  (sample.map Item.g).sum

/-- The list of values carried by the sample sequence, in order. -/
def valuesOf (sample : List Item) : List ℚ :=
  sample.map Item.value

/-- Sortedness of the sample sequence:  values are pairwise nondecreasing. -/
def sortedByValue (sample : List Item) : Prop :=
  (valuesOf sample).Pairwise (· ≤ ·)

instance (sample : List Item) : Decidable (sortedByValue sample) :=
  inferInstanceAs (Decidable ((valuesOf sample).Pairwise (· ≤ ·)))

/-- The structural invariant of a sketch maintained by every public
operation:  the pending buffer is strictly below its 500-entry capacity, the
sample is sorted by value, and the g fields sum to the merged-observation
counter count_. -/
def Inv (s : CKMS) : Prop :=
  s.buffer.length < 500 ∧ sortedByValue s.sample ∧ gsum s.sample = s.count

end CKMS

/-- Minimum of a list of observations (0 on the empty list, which no theorem
relies on). -/
def listMin : List ℚ → ℚ
  | [] => 0
  | h :: t => t.foldl Min.min h

/-- Maximum of a list of observations (0 on the empty list, which no theorem
relies on). -/
def listMax : List ℚ → ℚ
  | [] => 0
  | h :: t => t.foldl Max.max h

/-- The nondecreasing reordering of a stream of observations. -/
def sortStream (l : List ℚ) : List ℚ :=
  l.insertionSort (· ≤ ·)

/-- The true ranks (1-based positions in the sorted stream) at which a value
occurs in a stream. -/
def trueRanks (stream : List ℚ) (v : ℚ) : List ℕ :=
  (List.range stream.length).filterMap
    (fun i => if (sortStream stream).getD i 0 = v then some (i + 1) else none)

/-- The state of a windowed sampler, from class CKMSSample::Impl.  Time points
are modelled as integer second counts since the clock epoch (the code only
performs second-granularity chrono arithmetic on them). -/
structure CKMSSample where
  prev_window : CKMS
  cur_window : CKMS
  last_asserted_time : ℤ
  cur_window_begin : ℤ
  window_size : ℤ
deriving DecidableEq, Repr

namespace CKMSSample

/-- Construction, from CKMSSample::Impl::Impl(std::chrono::seconds):  both
windows are default-constructed sketches (default quantile list) and the two
time points are value-initialised to the epoch. -/
def new (window_size : ℤ) : CKMSSample :=
  { prev_window := CKMS.new kDefaultQuantiles
  , cur_window := CKMS.new kDefaultQuantiles
  , last_asserted_time := 0
  , cur_window_begin := 0
  , window_size := window_size }

/-- CKMSSample::Impl::CalculateCurrentWindowStartingPoint:
time - (time_since_epoch mod window_size). -/
def calculateCurrentWindowStartingPoint (s : CKMSSample) (t : ℤ) : ℤ :=
  t - t % s.window_size

/-- CKMSSample::Impl::IsInCurrentWindow. -/
def IsInCurrentWindow (s : CKMSSample) (ts : ℤ) : Prop :=
  s.cur_window_begin ≤ ts ∧ ts < s.cur_window_begin + s.window_size

instance (s : CKMSSample) (ts : ℤ) : Decidable (IsInCurrentWindow s ts) :=
  inferInstanceAs (Decidable (And _ _))

/-- CKMSSample::Impl::IsInNextWindow. -/
def IsInNextWindow (s : CKMSSample) (ts : ℤ) : Prop :=
  s.cur_window_begin + s.window_size ≤ ts ∧
    ts < s.cur_window_begin + 2 * s.window_size

instance (s : CKMSSample) (ts : ℤ) : Decidable (IsInNextWindow s ts) :=
  inferInstanceAs (Decidable (And _ _))

/-- CKMSSample::Impl::Update(value, timestamp).  AssertValidTime aborts when
the timestamp precedes last_asserted_time_ (modelled as the result none);
otherwise last_asserted_time_ is set to the timestamp, the windows are
rotated or reset when the timestamp has left the current window, and the
value is inserted into the (possibly new) current window. -/
def Update (s : CKMSSample) (value : ℚ) (ts : ℤ) : Option CKMSSample :=
  if s.last_asserted_time ≤ ts then
    let s0 := { s with last_asserted_time := ts }
    let s1 :=
      if ¬ IsInCurrentWindow s0 ts then
        if IsInNextWindow s0 ts then
          { s0 with
              prev_window := s0.cur_window,
              cur_window := s0.prev_window.reset,
              cur_window_begin := s0.cur_window_begin + s0.window_size }
        else
          { s0 with
              prev_window := s0.prev_window.reset,
              cur_window := s0.cur_window.reset,
              cur_window_begin := s0.calculateCurrentWindowStartingPoint ts }
      else s0
    some { s1 with cur_window := s1.cur_window.insert value }
  else none

/-- A snapshot backed by an owned copy of a sketch, from class Snapshot with
its CKMSImpl backing (Snapshot(const CKMS&)). -/
structure Snapshot where
  ckms : CKMS
deriving DecidableEq, Repr

/-- Modelled from the spec:  Snapshot::size() for a CKMS-backed snapshot is
not part of the sources under verification (snapshot.cc is absent; only
snapshot.h is present), and per spec section 4.3 it is the count of samples
represented, namely count() of the backing sketch. -/
def Snapshot.size (sn : Snapshot) : ℕ :=
  sn.ckms.countTotal

/-- CKMSSample::Impl::MakeSnapshot(timestamp):  after AssertValidTime (none
models the assertion failure), return a snapshot over prev_window_ when the
timestamp is in the current window, over cur_window_ when it is in the next
window, and over a default-constructed empty sketch otherwise.  The sampler
state is returned alongside to expose the mutation of last_asserted_time_. -/
def MakeSnapshot (s : CKMSSample) (ts : ℤ) : Option (CKMSSample × Snapshot) :=
  if s.last_asserted_time ≤ ts then
    let s0 := { s with last_asserted_time := ts }
    if IsInCurrentWindow s0 ts then some (s0, ⟨s0.prev_window⟩)
    else if IsInNextWindow s0 ts then some (s0, ⟨s0.cur_window⟩)
    else some (s0, ⟨CKMS.new kDefaultQuantiles⟩)
  else none

end CKMSSample

/-! ### Claims about the windowed sampler -/

/-- C10:  for every sampler state and every timestamp not earlier than the
last asserted time, MakeSnapshot is read-only with respect to the window
state:  both window sketches, the window start and the window size are
returned unchanged (only last_asserted_time_ is advanced). -/
theorem c10_makeSnapshot_readonly (s : CKMSSample) (ts : ℤ)
    (h : s.last_asserted_time ≤ ts) :
    (s.MakeSnapshot ts).map
        (fun p => (p.1.prev_window, p.1.cur_window,
                   p.1.cur_window_begin, p.1.window_size)) =
      some (s.prev_window, s.cur_window, s.cur_window_begin, s.window_size) := by
  simp only [CKMSSample.MakeSnapshot, h, if_true]
  split_ifs <;> rfl

/-- Witness for c10_makeSnapshot_readonly at a concrete sampler state. -/
theorem c10_makeSnapshot_readonly_witness :
    ((CKMSSample.new 30).MakeSnapshot 42).map
        (fun p => (p.1.prev_window, p.1.cur_window,
                   p.1.cur_window_begin, p.1.window_size)) =
      some ((CKMSSample.new 30).prev_window, (CKMSSample.new 30).cur_window,
            (CKMSSample.new 30).cur_window_begin, (CKMSSample.new 30).window_size) :=
  c10_makeSnapshot_readonly (CKMSSample.new 30) 42 (by decide)

/-- C4:  for a snapshot call that passes the time assertion, a timestamp in
the current window yields a snapshot over the previous window's sketch, a
timestamp in the next window yields a snapshot over the sketch that was
current before the call (the state is unchanged apart from
last_asserted_time_), and a timestamp at or beyond cur_window_begin plus two
window widths yields an empty snapshot of size 0. -/
theorem c4_makeSnapshot_windows (s : CKMSSample) (ts : ℤ)
    (h : s.last_asserted_time ≤ ts) :
    (s.cur_window_begin ≤ ts ∧ ts < s.cur_window_begin + s.window_size →
      s.MakeSnapshot ts =
        some ({ s with last_asserted_time := ts }, ⟨s.prev_window⟩)) ∧
    (s.cur_window_begin + s.window_size ≤ ts ∧
        ts < s.cur_window_begin + 2 * s.window_size →
      s.MakeSnapshot ts =
        some ({ s with last_asserted_time := ts }, ⟨s.cur_window⟩)) ∧
    (s.cur_window_begin + 2 * s.window_size ≤ ts →
      ∃ p, s.MakeSnapshot ts = some p ∧
        p.1 = { s with last_asserted_time := ts } ∧ p.2.size = 0) := by
  refine ⟨fun hcur => ?_, fun hnext => ?_, fun hfar => ?_⟩
  · simp only [CKMSSample.MakeSnapshot, h, if_true]
    rw [if_pos (show CKMSSample.IsInCurrentWindow
      { s with last_asserted_time := ts } ts from hcur)]
  · have hnotcur : ¬ CKMSSample.IsInCurrentWindow
        { s with last_asserted_time := ts } ts := by
      simp only [CKMSSample.IsInCurrentWindow]
      omega
    simp only [CKMSSample.MakeSnapshot, h, if_true]
    rw [if_neg hnotcur, if_pos (show CKMSSample.IsInNextWindow
      { s with last_asserted_time := ts } ts from hnext)]
  · have hnotcur : ¬ CKMSSample.IsInCurrentWindow
        { s with last_asserted_time := ts } ts := by
      simp only [CKMSSample.IsInCurrentWindow]
      omega
    have hnotnext : ¬ CKMSSample.IsInNextWindow
        { s with last_asserted_time := ts } ts := by
      simp only [CKMSSample.IsInNextWindow]
      omega
    simp only [CKMSSample.MakeSnapshot, h, if_true]
    rw [if_neg hnotcur, if_neg hnotnext]
    exact ⟨_, rfl, rfl, rfl⟩

/-- Witness for c4_makeSnapshot_windows:  the three window cases at concrete
timestamps 10, 40 and 70 on a fresh sampler with a 30 second window. -/
theorem c4_makeSnapshot_windows_witness :
    (CKMSSample.new 30).MakeSnapshot 10 =
      some ({ CKMSSample.new 30 with last_asserted_time := 10 },
            ⟨(CKMSSample.new 30).prev_window⟩) ∧
    (CKMSSample.new 30).MakeSnapshot 40 =
      some ({ CKMSSample.new 30 with last_asserted_time := 40 },
            ⟨(CKMSSample.new 30).cur_window⟩) ∧
    ∃ p, (CKMSSample.new 30).MakeSnapshot 70 = some p ∧
      p.1 = { CKMSSample.new 30 with last_asserted_time := 70 } ∧ p.2.size = 0 :=
  ⟨(c4_makeSnapshot_windows (CKMSSample.new 30) 10 (by decide)).1 (by decide),
   (c4_makeSnapshot_windows (CKMSSample.new 30) 40 (by decide)).2.1 (by decide),
   (c4_makeSnapshot_windows (CKMSSample.new 30) 70 (by decide)).2.2 (by decide)⟩

/-- C2, counterexample:  a past-dated update is not silently ignored.  On a
fresh sampler with a 30 second window, Update(1, 35) rotates the window so
that cur_window_begin_ becomes 30 and last_asserted_time_ becomes 35; the
subsequent past-dated Update(2, 10) has its timestamp before
cur_window_begin_, and instead of being ignored without error it fails the
AssertValidTime assertion (modelled as none). -/
theorem c2_counterexample :
    ((CKMSSample.new 30).Update 1 35).map (fun s => s.cur_window_begin) =
        some 30 ∧
    ((CKMSSample.new 30).Update 1 35).bind (fun s => s.Update 2 10) = none := by
  constructor <;> decide

/-- C2, amended:  an update whose timestamp precedes cur_window_begin_ is
never silently ignored.  If the timestamp also precedes last_asserted_time_
(the only way a past-dated write can arise in a run that respects the
assertion discipline), the AssertValidTime assertion fails; if assertions
are passed (a state with last_asserted_time_ ≤ ts < cur_window_begin_), the
update takes the long-gap branch:  both windows are reset,
cur_window_begin_ is realigned to the timestamp, and the value is inserted
into the new current window. -/
theorem c2_pastUpdate_not_ignored (s : CKMSSample) (v : ℚ) (ts : ℤ)
    (hpast : ts < s.cur_window_begin) :
    (s.last_asserted_time ≤ ts →
      s.Update v ts = some
        { s with last_asserted_time := ts,
                 prev_window := s.prev_window.reset,
                 cur_window := (s.cur_window.reset).insert v,
                 cur_window_begin := ts - ts % s.window_size }) ∧
    (ts < s.last_asserted_time → s.Update v ts = none) := by
  constructor
  · intro hok
    have hnotcur : ¬ CKMSSample.IsInCurrentWindow
        { s with last_asserted_time := ts } ts := by
      simp only [CKMSSample.IsInCurrentWindow]
      omega
    have hnotnext : ¬ CKMSSample.IsInNextWindow
        { s with last_asserted_time := ts } ts := by
      simp only [CKMSSample.IsInNextWindow]
      omega
    simp only [CKMSSample.Update, hok, if_true]
    rw [if_pos hnotcur, if_neg hnotnext]
    rfl
  · intro hlate
    simp only [CKMSSample.Update]
    rw [if_neg (show ¬ s.last_asserted_time ≤ ts by omega)]

/-- Witness for c2_pastUpdate_not_ignored:  both branches at concrete
states; the sampler state with window start 30 and a timestamp of 10. -/
theorem c2_pastUpdate_not_ignored_witness :
    ({ CKMSSample.new 30 with cur_window_begin := 30 }.Update 7 10 = some
      { CKMSSample.new 30 with
          cur_window_begin := 10 - 10 % 30,
          last_asserted_time := 10,
          prev_window := ({ CKMSSample.new 30 with
              cur_window_begin := 30 }).prev_window.reset,
          cur_window := (({ CKMSSample.new 30 with
              cur_window_begin := 30 }).cur_window.reset).insert 7 }) ∧
    ({ CKMSSample.new 30 with
        cur_window_begin := 30,
        last_asserted_time := 20 }.Update 7 10 = none) := by
  constructor
  · exact (c2_pastUpdate_not_ignored
      { CKMSSample.new 30 with cur_window_begin := 30 } 7 10
      (by decide)).1 (by decide)
  · exact (c2_pastUpdate_not_ignored
      { CKMSSample.new 30 with
          cur_window_begin := 30,
          last_asserted_time := 20 }
      7 10 (by decide)).2 (by decide)

unseal Rat.add Rat.mul Rat.sub Rat.inv Rat.ofScientific in
/-- C9, counterexample:  none of the configurations the claim calls invalid
is rejected at construction, and each produces a usable instance:  a sketch
over an empty quantile list, a sketch whose target has a quantile outside
the unit interval, a sketch whose target has a negative error, and a sampler
with a negative window size all accept observations and answer queries. -/
theorem c9_counterexample :
    ((CKMS.new []).insert 5).getValue (1/2) = 5 ∧
    ((CKMS.new [⟨2, 1/2⟩]).insert 3).getValue 2 = 3 ∧
    ((CKMS.new [⟨1/2, -1⟩]).insert 4).getValue (1/2) = 4 ∧
    ((CKMSSample.new (-3)).Update 9 0).isSome = true := by
  refine ⟨by decide, by decide, by decide, by decide⟩

/-- C9, amended:  construction performs no validation at all.  For every
quantile list (the empty list included, and whatever the targets contain)
the sketch constructor succeeds and the instance absorbs observations, and
for every window size (non-positive ones included) the sampler constructor
succeeds and accepts updates at any nonnegative timestamp.  The only
InvalidArgument in the sources is thrown by Histogram for an unknown
sample-type enumerator, which is not one of the configurations this claim
lists. -/
theorem c9_no_validation (qs : List Quantile) (x : ℚ) (w ts : ℤ) (v : ℚ)
    (hts : 0 ≤ ts) :
    ((CKMS.new qs).insert x).countTotal = 1 ∧
    ((CKMS.new qs).insert x).max = x ∧
    ∃ s', (CKMSSample.new w).Update v ts = some s' := by
  refine ⟨by with_unfolding_all rfl, by with_unfolding_all rfl, ?_⟩
  simp only [CKMSSample.Update]
  rw [if_pos (show (CKMSSample.new w).last_asserted_time ≤ ts from hts)]
  exact ⟨_, rfl⟩

/-- Witness for c9_no_validation at the empty quantile list and a negative
window size. -/
theorem c9_no_validation_witness :
    ((CKMS.new []).insert 5).countTotal = 1 ∧
    ((CKMS.new []).insert 5).max = 5 ∧
    ∃ s', (CKMSSample.new (-3)).Update 9 0 = some s' :=
  c9_no_validation [] 5 (-3) 0 9 (by decide)

/-! ### List-level helper lemmas -/

namespace CKMS

theorem getItem_eq_getElem (l : List Item) (i : ℕ) (h : i < l.length) :
    getItem l i = l[i] :=
  List.getD_eq_getElem l _ h

theorem insertIdx_eq_take_cons_drop (x : Item) :
    ∀ (n : ℕ) (l : List Item), n ≤ l.length →
      l.insertIdx n x = l.take n ++ x :: l.drop n
  | 0, l, _ => rfl
  | n + 1, [], h => by simp at h
  | n + 1, a :: l, h => by
    simp only [List.insertIdx_succ_cons, List.take_succ_cons, List.drop_succ_cons,
      List.cons_append]
    rw [insertIdx_eq_take_cons_drop x n l (by simpa using h)]

theorem gsum_append (l₁ l₂ : List Item) : gsum (l₁ ++ l₂) = gsum l₁ + gsum l₂ := by
  simp [gsum]

theorem gsum_cons (x : Item) (l : List Item) : gsum (x :: l) = x.g + gsum l := by
  simp [gsum]

theorem gsum_insertIdx (l : List Item) (n : ℕ) (x : Item) (h : n ≤ l.length) :
    gsum (l.insertIdx n x) = gsum l + x.g := by
  rw [insertIdx_eq_take_cons_drop x n l h, gsum_append, gsum_cons]
  conv_rhs => rw [← List.take_append_drop n l, gsum_append]
  ring

theorem gsum_take_drop (l : List Item) (n : ℕ) (h : n < l.length) :
    gsum l = gsum (l.take n) + (getItem l n).g + gsum (l.drop (n + 1)) := by
  conv_lhs => rw [← List.take_append_drop n l, gsum_append,
    List.drop_eq_getElem_cons h, gsum_cons]
  rw [getItem_eq_getElem l n h]
  ring

theorem gsum_set (l : List Item) (n : ℕ) (x : Item) (h : n < l.length) :
    gsum (l.set n x) = gsum l - (getItem l n).g + x.g := by
  rw [List.set_eq_take_cons_drop x h, gsum_append, gsum_cons,
    gsum_take_drop l n h]
  ring

theorem gsum_eraseIdx (l : List Item) (n : ℕ) (h : n < l.length) :
    gsum (l.eraseIdx n) = gsum l - (getItem l n).g := by
  rw [List.eraseIdx_eq_take_drop_succ, gsum_append, gsum_take_drop l n h]
  ring

theorem list_set_self {α : Type} (l : List α) (n : ℕ) (h : n < l.length) :
    l.set n (l.get ⟨n, h⟩) = l := by
  rw [List.get_eq_getElem, List.set_eq_take_cons_drop _ h,
    ← List.drop_eq_getElem_cons h, List.take_append_drop]

theorem valuesOf_set (l : List Item) (n : ℕ) (x : Item) (h : n < l.length)
    (hv : x.value = (getItem l n).value) :
    valuesOf (l.set n x) = valuesOf l := by
  have hn : n < (l.map Item.value).length := by simpa using h
  rw [valuesOf, List.map_set, hv, getItem_eq_getElem l n h]
  have hx : l[n].value = (l.map Item.value).get ⟨n, hn⟩ := by
    simp [List.get_eq_getElem]
  rw [hx, list_set_self]
  rfl

theorem valuesOf_eraseIdx (l : List Item) (n : ℕ) :
    valuesOf (l.eraseIdx n) = (valuesOf l).eraseIdx n := by
  simp [valuesOf, List.eraseIdx_eq_take_drop_succ, List.map_take, List.map_drop]

theorem sorted_eraseIdx (l : List Item) (n : ℕ) (h : sortedByValue l) :
    sortedByValue (l.eraseIdx n) := by
  rw [sortedByValue, valuesOf_eraseIdx]
  exact List.Pairwise.sublist (List.eraseIdx_sublist _ n) h

theorem length_valuesOf (l : List Item) : (valuesOf l).length = l.length := by
  simp [valuesOf]

theorem sorted_getItem_le (l : List Item) (h : sortedByValue l) (i j : ℕ)
    (hij : i ≤ j) (hj : j < l.length) :
    (getItem l i).value ≤ (getItem l j).value := by
  rcases Nat.eq_or_lt_of_le hij with rfl | hlt
  · exact le_refl _
  · have := (List.pairwise_iff_getElem.mp h) i j
      (by simpa [valuesOf] using lt_trans hlt hj) (by simpa [valuesOf] using hj) hlt
    rw [getItem_eq_getElem l i (lt_trans hlt hj), getItem_eq_getElem l j hj]
    simpa [valuesOf] using this

/-! ### Behaviour of the insertBatch scan and per-value insertion -/

theorem scanIdx_spec (sample : List Item) (v : ℚ) :
    ∀ item idx, item + 1 = idx → idx ≤ sample.length →
      (scanIdx sample v item idx).1 + 1 = (scanIdx sample v item idx).2 ∧
      idx ≤ (scanIdx sample v item idx).2 ∧
      (scanIdx sample v item idx).2 ≤ sample.length ∧
      ((scanIdx sample v item idx).2 = sample.length ∨
        v ≤ (getItem sample (scanIdx sample v item idx).1).value) ∧
      (∀ j, item ≤ j → j < (scanIdx sample v item idx).1 →
        (getItem sample j).value < v) := by
  refine scanIdx.induct sample v
    (fun item idx =>
      item + 1 = idx → idx ≤ sample.length →
      (scanIdx sample v item idx).1 + 1 = (scanIdx sample v item idx).2 ∧
      idx ≤ (scanIdx sample v item idx).2 ∧
      (scanIdx sample v item idx).2 ≤ sample.length ∧
      ((scanIdx sample v item idx).2 = sample.length ∨
        v ≤ (getItem sample (scanIdx sample v item idx).1).value) ∧
      (∀ j, item ≤ j → j < (scanIdx sample v item idx).1 →
        (getItem sample j).value < v)) ?_ ?_
  · intro item idx hcond ih h1 h2
    rw [scanIdx, if_pos hcond]
    have h2' : idx + 1 ≤ sample.length := hcond.1
    obtain ⟨i1, i2, i3, i4, i5⟩ := ih rfl h2'
    refine ⟨i1, by omega, i3, i4, ?_⟩
    intro j hj1 hj2
    rcases Nat.lt_or_ge j idx with hj | hj
    · have : j = item := by omega
      subst this
      exact hcond.2
    · exact i5 j hj hj2
  · intro item idx hcond h1 h2
    rw [scanIdx, if_neg hcond]
    refine ⟨h1, le_refl _, h2, ?_, ?_⟩
    · rcases Nat.lt_or_ge idx sample.length with hlt | hge
      · right
        by_contra hv
        exact hcond ⟨hlt, by linarith [not_le.mp hv]⟩
      · left
        omega
    · intro j hj1 hj2
      omega

theorem insertOne_spec (qs : List Quantile) (st : BatchState) (v : ℚ)
    (hsort : sortedByValue st.sample)
    (hii : st.item + 1 = st.idx) (hidx : st.idx ≤ st.sample.length)
    (hctx : ∀ j, j < st.item → (getItem st.sample j).value ≤ v) :
    ∃ p δ, p ≤ st.sample.length ∧
      insertOne qs st v = ⟨st.sample.insertIdx p ⟨v, 1, δ⟩, st.count + 1, p, p + 1⟩ ∧
      (∀ j, j < p → (getItem st.sample j).value ≤ v) ∧
      (∀ j, p ≤ j → j < st.sample.length → v ≤ (getItem st.sample j).value) ∧
      ((p = 1 ∨ p + 1 = st.sample.length) → δ = 0) ∧
      (¬(p = 1 ∨ p + 1 = st.sample.length) →
        δ = ⌊allowableErrorL qs st.sample.length ((p : ℤ) + 1)⌋ + 1) := by
  obtain ⟨s1, s2, s3, s4, s5⟩ := scanIdx_spec st.sample v st.item st.idx hii hidx
  by_cases hb : v < (getItem st.sample (scanIdx st.sample v st.item st.idx).1).value
  · refine ⟨(scanIdx st.sample v st.item st.idx).2 - 1,
      (if (scanIdx st.sample v st.item st.idx).2 - 1 = 1 ∨
          (scanIdx st.sample v st.item st.idx).2 - 1 + 1 = st.sample.length then (0:ℤ)
       else ⌊allowableErrorL qs st.sample.length
          (((scanIdx st.sample v st.item st.idx).2 - 1 : ℕ) + 1)⌋ + 1),
      by omega, ?_, ?_, ?_, ?_, ?_⟩
    · simp only [insertOne, if_pos hb]
    · intro j hj
      have hp : (scanIdx st.sample v st.item st.idx).2 - 1 =
          (scanIdx st.sample v st.item st.idx).1 := by omega
      rw [hp] at hj
      rcases Nat.lt_or_ge j st.item with hj2 | hj2
      · exact hctx j hj2
      · exact le_of_lt (s5 j hj2 hj)
    · intro j hj1 hj2
      have hp : (scanIdx st.sample v st.item st.idx).2 - 1 =
          (scanIdx st.sample v st.item st.idx).1 := by omega
      rw [hp] at hj1
      exact le_trans (le_of_lt hb)
        (sorted_getItem_le st.sample hsort _ j hj1 hj2)
    · intro hc
      rw [if_pos hc]
    · intro hc
      rw [if_neg hc]
  · refine ⟨(scanIdx st.sample v st.item st.idx).2,
      (if (scanIdx st.sample v st.item st.idx).2 = 1 ∨
          (scanIdx st.sample v st.item st.idx).2 + 1 = st.sample.length then (0:ℤ)
       else ⌊allowableErrorL qs st.sample.length
          (((scanIdx st.sample v st.item st.idx).2 : ℕ) + 1)⌋ + 1),
      s3, ?_, ?_, ?_, ?_, ?_⟩
    · simp only [insertOne, if_neg hb]
    · intro j hj
      rcases Nat.lt_or_ge j st.item with hj2 | hj2
      · exact hctx j hj2
      · rcases Nat.lt_or_ge j (scanIdx st.sample v st.item st.idx).1 with hj3 | hj3
        · exact le_of_lt (s5 j hj2 hj3)
        · have : j = (scanIdx st.sample v st.item st.idx).1 := by omega
          subst this
          exact not_lt.mp hb
    · intro j hj1 hj2
      rcases s4 with hlen | hle
      · omega
      · have hv : v = (getItem st.sample (scanIdx st.sample v st.item st.idx).1).value :=
          le_antisymm hle (not_lt.mp hb)
        rw [hv]
        exact sorted_getItem_le st.sample hsort _ j (by omega) hj2
    · intro hc
      rw [if_pos hc]
    · intro hc
      rw [if_neg hc]

theorem length_insertIdx_of_le (l : List Item) (p : ℕ) (x : Item) (hp : p ≤ l.length) :
    (l.insertIdx p x).length = l.length + 1 := by
  rw [insertIdx_eq_take_cons_drop x p l hp]
  simp
  omega

theorem getItem_insertIdx_of_lt (l : List Item) (p : ℕ) (x : Item) (j : ℕ)
    (hp : p ≤ l.length) (hj : j < p) :
    getItem (l.insertIdx p x) j = getItem l j := by
  have hj1 : j < l.length := lt_of_lt_of_le hj hp
  have hj2 : j < (l.insertIdx p x).length := by
    rw [length_insertIdx_of_le l p x hp]; omega
  rw [getItem_eq_getElem _ j hj2, getItem_eq_getElem l j hj1]
  exact List.getElem_insertIdx_of_lt l x p j hj hj1

theorem valuesOf_insertIdx_eq (l : List Item) (p : ℕ) (x : Item) (hp : p ≤ l.length) :
    valuesOf (l.insertIdx p x) =
      (valuesOf l).take p ++ x.value :: (valuesOf l).drop p := by
  rw [insertIdx_eq_take_cons_drop x p l hp]
  simp [valuesOf, List.map_take, List.map_drop]

theorem mem_take_values (l : List Item) (p : ℕ) (y : ℚ)
    (hy : y ∈ (valuesOf l).take p) :
    ∃ i, i < p ∧ i < l.length ∧ y = (getItem l i).value := by
  obtain ⟨i, hi, he⟩ := List.mem_iff_getElem.mp hy
  have hi1 : i < p := by
    have := List.length_take_le p (valuesOf l)
    have h2 : (List.take p (valuesOf l)).length = Min.min p (valuesOf l).length := by
      simp
    omega
  have hi2 : i < l.length := by
    have h2 : ((valuesOf l).take p).length ≤ (valuesOf l).length :=
      List.length_take_le' _ _
    have h3 : (valuesOf l).length = l.length := by simp [valuesOf]
    omega
  refine ⟨i, hi1, hi2, ?_⟩
  rw [← he, List.getElem_take, getItem_eq_getElem l i hi2]
  simp [valuesOf]

theorem mem_drop_values (l : List Item) (p : ℕ) (y : ℚ)
    (hy : y ∈ (valuesOf l).drop p) :
    ∃ i, p ≤ i ∧ i < l.length ∧ y = (getItem l i).value := by
  obtain ⟨i, hi, he⟩ := List.mem_iff_getElem.mp hy
  have hlen : (valuesOf l).length = l.length := by simp [valuesOf]
  have hi2 : p + i < l.length := by
    have : ((valuesOf l).drop p).length = (valuesOf l).length - p := by simp
    omega
  refine ⟨p + i, by omega, hi2, ?_⟩
  rw [← he, List.getElem_drop, getItem_eq_getElem l _ hi2]
  simp [valuesOf]

theorem sorted_insertIdx (l : List Item) (p : ℕ) (x : Item) (hp : p ≤ l.length)
    (hsort : sortedByValue l)
    (hpre : ∀ j, j < p → (getItem l j).value ≤ x.value)
    (hsuf : ∀ j, p ≤ j → j < l.length → x.value ≤ (getItem l j).value) :
    sortedByValue (l.insertIdx p x) := by
  rw [sortedByValue, valuesOf_insertIdx_eq l p x hp]
  rw [List.pairwise_append]
  refine ⟨List.Pairwise.sublist (List.take_sublist p _) hsort, ?_, ?_⟩
  · rw [List.pairwise_cons]
    refine ⟨?_, List.Pairwise.sublist (List.drop_sublist p _) hsort⟩
    intro y hy
    obtain ⟨i, hpi, hil, he⟩ := mem_drop_values l p y hy
    rw [he]
    exact hsuf i hpi hil
  · intro a ha b hb
    obtain ⟨i, hip, hil, hea⟩ := mem_take_values l p a ha
    have hav : a ≤ x.value := hea ▸ hpre i hip
    rcases List.mem_cons.mp hb with rfl | hb2
    · exact hav
    · obtain ⟨i2, hpi2, hil2, heb⟩ := mem_drop_values l p b hb2
      exact le_trans hav (heb ▸ hsuf i2 hpi2 hil2)



theorem batchLoop_spec (qs : List Quantile) :
    ∀ (buf : List ℚ) (st : BatchState),
      sortedByValue st.sample →
      st.item + 1 = st.idx → st.idx ≤ st.sample.length →
      buf.Pairwise (· ≤ ·) →
      (∀ j, j < st.item → ∀ b, b ∈ buf → (getItem st.sample j).value ≤ b) →
      sortedByValue (buf.foldl (insertOne qs) st).sample ∧
      (buf.foldl (insertOne qs) st).count = st.count + buf.length ∧
      (buf.foldl (insertOne qs) st).sample.length = st.sample.length + buf.length ∧
      gsum (buf.foldl (insertOne qs) st).sample = gsum st.sample + buf.length ∧
      (∀ x, x ∈ valuesOf (buf.foldl (insertOne qs) st).sample →
        x ∈ valuesOf st.sample ∨ x ∈ buf)
  | [], st => by
    intro h1 _ _ _ _
    refine ⟨h1, by simp, by simp, by simp, fun x hx => Or.inl (by simpa using hx)⟩
  | v :: rest, st => by
    intro hsort hii hidx hbuf hctx
    obtain ⟨p, δ, hp, heq, hpre, hsuf, _, _⟩ :=
      insertOne_spec qs st v hsort hii hidx
        (fun j hj => hctx j hj v (List.mem_cons_self _ _))
    have hvb : ∀ b, b ∈ rest → v ≤ b := fun b hb => (List.pairwise_cons.mp hbuf).1 b hb
    have hsort' : sortedByValue (st.sample.insertIdx p ⟨v, 1, δ⟩) :=
      sorted_insertIdx _ p _ hp hsort hpre hsuf
    have hlen' : (st.sample.insertIdx p ⟨v, 1, δ⟩).length = st.sample.length + 1 :=
      length_insertIdx_of_le _ p _ hp
    have hctx' : ∀ j, j < p → ∀ b, b ∈ rest →
        (getItem (st.sample.insertIdx p ⟨v, 1, δ⟩) j).value ≤ b := by
      intro j hj b hb
      rw [getItem_insertIdx_of_lt _ p _ j hp hj]
      exact le_trans (hpre j hj) (hvb b hb)
    obtain ⟨c1, c2, c3, c4, c5⟩ :=
      batchLoop_spec qs rest ⟨st.sample.insertIdx p ⟨v, 1, δ⟩, st.count + 1, p, p + 1⟩
        hsort' rfl (by simpa [hlen'] using Nat.succ_le_succ hp)
        (List.pairwise_cons.mp hbuf).2 hctx'
    rw [List.foldl_cons, heq]
    refine ⟨c1, ?_, ?_, ?_, ?_⟩
    · rw [c2]
      dsimp only
      simp only [List.length_cons]
      omega
    · rw [c3]
      dsimp only
      rw [hlen']
      simp only [List.length_cons]
      omega
    · rw [c4]
      dsimp only
      have hg : gsum (st.sample.insertIdx p ⟨v, 1, δ⟩) = gsum st.sample + 1 :=
        gsum_insertIdx st.sample p _ hp
      rw [hg]
      simp only [List.length_cons]
      push_cast
      ring
    · intro x hx
      rcases c5 x hx with hx1 | hx2
      · dsimp only at hx1
        rw [valuesOf_insertIdx_eq st.sample p _ hp] at hx1
        rcases List.mem_append.mp hx1 with h | h
        · exact Or.inl (List.take_subset p _ h)
        · rcases List.mem_cons.mp h with rfl | h2
          · exact Or.inr (List.mem_cons_self _ _)
          · exact Or.inl (List.drop_subset p _ h2)
      · exact Or.inr (List.mem_cons_of_mem v hx2)

theorem getItem_set_of_ne (l : List Item) (n m : ℕ) (x : Item) (hne : m ≠ n)
    (hm : m < l.length) :
    getItem (l.set n x) m = getItem l m := by
  have hm' : m < (l.set n x).length := by simpa using hm
  rw [getItem_eq_getElem _ m hm', getItem_eq_getElem l m hm]
  exact List.getElem_set_ne (Ne.symm hne) hm'

theorem compressLoop_spec (qs : List Quantile) :
    ∀ (sample : List Item) (next idx : ℕ),
      next < idx →
      sortedByValue sample →
      sortedByValue (compressLoop qs sample next idx) ∧
      gsum (compressLoop qs sample next idx) = gsum sample ∧
      (∀ x, x ∈ valuesOf (compressLoop qs sample next idx) → x ∈ valuesOf sample) ∧
      (sample ≠ [] → compressLoop qs sample next idx ≠ []) := by
  refine compressLoop.induct qs
    (fun sample next idx =>
      next < idx →
      sortedByValue sample →
      sortedByValue (compressLoop qs sample next idx) ∧
      gsum (compressLoop qs sample next idx) = gsum sample ∧
      (∀ x, x ∈ valuesOf (compressLoop qs sample next idx) → x ∈ valuesOf sample) ∧
      (sample ≠ [] → compressLoop qs sample next idx ≠ [])) ?_ ?_ ?_
  · -- merge case
    intro sample next idx hidx prev nxt idx' pi ni hcond ih hni hsort
    have heq : compressLoop qs sample next idx =
        compressLoop qs ((sample.set idx
          { value := (getItem sample idx).value,
            g := (getItem sample idx).g + (getItem sample next).g,
            delta := (getItem sample idx).delta }).eraseIdx next) idx (idx + 1) := by
      rw [compressLoop, dif_pos hidx, if_pos hcond]
    have hnext : next < sample.length := by omega
    have hnen : next ≠ idx := by omega
    have hset : valuesOf (sample.set idx
        { value := (getItem sample idx).value,
          g := (getItem sample idx).g + (getItem sample next).g,
          delta := (getItem sample idx).delta }) = valuesOf sample :=
      valuesOf_set sample idx _ hidx rfl
    have hsort2 : sortedByValue ((sample.set idx
        { value := (getItem sample idx).value,
          g := (getItem sample idx).g + (getItem sample next).g,
          delta := (getItem sample idx).delta }).eraseIdx next) := by
      apply sorted_eraseIdx
      rw [sortedByValue, hset]
      exact hsort
    have hlen2 : ((sample.set idx
        { value := (getItem sample idx).value,
          g := (getItem sample idx).g + (getItem sample next).g,
          delta := (getItem sample idx).delta }).eraseIdx next).length
        = sample.length - 1 := by
      rw [List.length_eraseIdx]
      simp only [List.length_set]
      rw [if_pos hnext]
    obtain ⟨c1, c2, c3, c4⟩ := ih (by omega) hsort2
    rw [heq]
    refine ⟨c1, ?_, ?_, ?_⟩
    · rw [c2]
      have hg1 : gsum (sample.set idx
          { value := (getItem sample idx).value,
            g := (getItem sample idx).g + (getItem sample next).g,
            delta := (getItem sample idx).delta }) =
          gsum sample - (getItem sample idx).g +
            ((getItem sample idx).g + (getItem sample next).g) :=
        gsum_set sample idx _ hidx
      have hg2 := gsum_eraseIdx (sample.set idx
          { value := (getItem sample idx).value,
            g := (getItem sample idx).g + (getItem sample next).g,
            delta := (getItem sample idx).delta }) next (by simpa using hnext)
      rw [hg2, hg1, getItem_set_of_ne sample idx next _ hnen hnext]
      ring
    · intro x hx
      have := c3 x hx
      rw [valuesOf_eraseIdx, hset] at this
      exact List.Sublist.subset (List.eraseIdx_sublist _ next) this
    · intro hne
      apply c4
      intro habs
      have hz : ((sample.set idx
          { value := (getItem sample idx).value,
            g := (getItem sample idx).g + (getItem sample next).g,
            delta := (getItem sample idx).delta }).eraseIdx next).length = 0 := by
        rw [habs]; rfl
      rw [hlen2] at hz
      omega
  · -- no-merge case
    intro sample next idx hidx prev nxt idx' pi ni hcond ih hni hsort
    obtain ⟨c1, c2, c3, c4⟩ := ih (by omega) hsort
    have heq : compressLoop qs sample next idx = compressLoop qs sample idx (idx + 1) := by
      rw [compressLoop, dif_pos hidx, if_neg hcond]
    rw [heq]
    exact ⟨c1, c2, c3, c4⟩
  · -- loop exit
    intro sample next idx hge hni hsort
    rw [compressLoop, dif_neg hge]
    exact ⟨hsort, rfl, fun x hx => hx, fun h => h⟩

theorem insertBatch_spec (s : CKMS) (hsort : sortedByValue s.sample) :
    sortedByValue (s.insertBatch).1.sample ∧
    (s.insertBatch).1.buffer = [] ∧
    (s.insertBatch).1.count = s.count + s.buffer.length ∧
    gsum (s.insertBatch).1.sample = gsum s.sample + s.buffer.length ∧
    (s.insertBatch).1.sample.length = s.sample.length + s.buffer.length ∧
    (∀ x, x ∈ valuesOf (s.insertBatch).1.sample →
      x ∈ valuesOf s.sample ∨ x ∈ s.buffer) := by
  by_cases hempty : s.buffer.length = 0
  · have hb : s.buffer = [] := List.length_eq_zero.mp hempty
    rw [insertBatch, if_pos hempty]
    simp [hb, hsort]
  · have hperm : (s.buffer.insertionSort (· ≤ ·)).Perm s.buffer :=
      List.perm_insertionSort _ _
    have hsorted : (s.buffer.insertionSort (· ≤ ·)).Pairwise (· ≤ ·) :=
      List.sorted_insertionSort _ _
    have hlenbuf : (s.buffer.insertionSort (· ≤ ·)).length = s.buffer.length :=
      hperm.length_eq
    have hmem : ∀ x, x ∈ s.buffer.insertionSort (· ≤ ·) → x ∈ s.buffer :=
      fun x hx => hperm.mem_iff.mp hx
    rw [insertBatch, if_neg hempty]
    by_cases hseed : s.sample.length = 0
    · -- seeded case
      have hsnil : s.sample = [] := List.length_eq_zero.mp hseed
      have hbufne : s.buffer.insertionSort (· ≤ ·) ≠ [] := by
        intro h
        rw [h] at hlenbuf
        simp at hlenbuf
        omega
      obtain ⟨b, bt, hbt⟩ : ∃ b bt, s.buffer.insertionSort (· ≤ ·) = b :: bt :=
        List.exists_cons_of_ne_nil hbufne
      simp only [if_pos hseed, hbt, List.headI_cons, List.tail_cons]
      rw [hbt] at hsorted hlenbuf hmem
      simp only [List.length_cons] at hlenbuf
      have hsorted0 : sortedByValue [(⟨b, 1, 0⟩ : Item)] := by
        simp [sortedByValue, valuesOf]
      obtain ⟨c1, c2, c3, c4, c5⟩ :=
        batchLoop_spec s.quantiles bt ⟨[⟨b, 1, 0⟩], s.count + 1, 0, 1⟩
          hsorted0 rfl (by simp) (List.pairwise_cons.mp hsorted).2
          (by intro j hj; dsimp only at hj; exact absurd hj (Nat.not_lt_zero j))
      refine ⟨c1, trivial, ?_, ?_, ?_, ?_⟩
      · rw [c2]
        dsimp only
        omega
      · rw [c4]
        dsimp only
        rw [hsnil]
        have h1 : gsum [(⟨b, 1, 0⟩ : Item)] = 1 := by simp [gsum]
        have h0 : gsum ([] : List Item) = 0 := by simp [gsum]
        rw [h1, h0]
        have : (s.buffer.length : ℤ) = (bt.length : ℤ) + 1 := by
          omega
        rw [this]
        ring
      · rw [c3]
        dsimp only
        rw [hsnil]
        simp only [List.length_cons, List.length_nil]
        omega
      · intro x hx
        rcases c5 x hx with h1 | h2
        · right
          simp only [valuesOf, List.map_cons, List.map_nil] at h1
          rcases List.mem_singleton.mp h1 with rfl
          exact hmem _ (List.mem_cons_self _ _)
        · right
          exact hmem _ (List.mem_cons_of_mem b h2)
    · -- non-seeded case
      simp only [if_neg hseed]
      obtain ⟨c1, c2, c3, c4, c5⟩ :=
        batchLoop_spec s.quantiles (s.buffer.insertionSort (· ≤ ·))
          ⟨s.sample, s.count, 0, 1⟩
          hsort rfl (by dsimp only; omega) hsorted
          (by intro j hj; dsimp only at hj; exact absurd hj (Nat.not_lt_zero j))
      refine ⟨c1, trivial, ?_, ?_, ?_, ?_⟩
      · rw [c2]
        dsimp only
        omega
      · rw [c4]
        dsimp only
        rw [hlenbuf]
      · rw [c3]
        dsimp only
        omega
      · intro x hx
        rcases c5 x hx with h1 | h2
        · exact Or.inl h1
        · exact Or.inr (hmem _ h2)

theorem compress_spec (s : CKMS) (hsort : sortedByValue s.sample) :
    sortedByValue (s.compress).sample ∧
    gsum (s.compress).sample = gsum s.sample ∧
    (∀ x, x ∈ valuesOf (s.compress).sample → x ∈ valuesOf s.sample) ∧
    (s.sample ≠ [] → (s.compress).sample ≠ []) := by
  rw [compress]
  split_ifs with h
  · exact ⟨hsort, rfl, fun x hx => hx, fun h2 => h2⟩
  · obtain ⟨c1, c2, c3, c4⟩ := compressLoop_spec s.quantiles s.sample 0 1 (by omega) hsort
    exact ⟨c1, c2, c3, c4⟩

theorem compress_frame (s : CKMS) :
    (s.compress).buffer = s.buffer ∧ (s.compress).count = s.count ∧
    (s.compress).quantiles = s.quantiles ∧
    (s.compress).min = s.min ∧ (s.compress).max = s.max ∧
    (s.compress).sum = s.sum ∧ (s.compress).variance_m = s.variance_m ∧
    (s.compress).variance_s = s.variance_s := by
  rw [compress]
  split_ifs <;> exact ⟨rfl, rfl, rfl, rfl, rfl, rfl, rfl, rfl⟩

theorem insertBatch_frame (s : CKMS) :
    (s.insertBatch).1.quantiles = s.quantiles ∧
    (s.insertBatch).1.min = s.min ∧ (s.insertBatch).1.max = s.max ∧
    (s.insertBatch).1.sum = s.sum ∧
    (s.insertBatch).1.variance_m = s.variance_m ∧
    (s.insertBatch).1.variance_s = s.variance_s := by
  rw [insertBatch]
  split_ifs <;> exact ⟨rfl, rfl, rfl, rfl, rfl, rfl⟩

theorem updateHistogramMetrics_frame (s : CKMS) (x : ℚ) :
    (s.updateHistogramMetrics x).count = s.count ∧
    (s.updateHistogramMetrics x).sample = s.sample ∧
    (s.updateHistogramMetrics x).buffer = s.buffer ∧
    (s.updateHistogramMetrics x).quantiles = s.quantiles := by
  rw [updateHistogramMetrics]
  split_ifs <;> exact ⟨rfl, rfl, rfl, rfl⟩

theorem updateHistogramMetrics_aggregates (s : CKMS) (x : ℚ) :
    (s.countTotal = 0 →
      (s.updateHistogramMetrics x).min = x ∧
      (s.updateHistogramMetrics x).max = x ∧
      (s.updateHistogramMetrics x).sum = x) ∧
    (s.countTotal ≠ 0 →
      (s.updateHistogramMetrics x).min = Min.min s.min x ∧
      (s.updateHistogramMetrics x).max = Max.max s.max x ∧
      (s.updateHistogramMetrics x).sum = s.sum + x) := by
  constructor
  · intro h
    rw [updateHistogramMetrics]
    simp only [if_pos h]
    split_ifs <;> exact ⟨rfl, rfl, rfl⟩
  · intro h
    rw [updateHistogramMetrics]
    simp only [if_neg h]
    split_ifs <;> exact ⟨rfl, rfl, rfl⟩

theorem inv_new (qs : List Quantile) : Inv (new qs) := by
  refine ⟨by simp [new], by simp [new, sortedByValue, valuesOf], by simp [new, gsum]⟩

theorem inv_reset (s : CKMS) : Inv (s.reset) := by
  refine ⟨by simp [reset], by simp [reset, sortedByValue, valuesOf], by simp [reset, gsum]⟩

theorem inv_insert (s : CKMS) (v : ℚ) (h : Inv s) : Inv (s.insert v) := by
  obtain ⟨hb, hs, hg⟩ := h
  obtain ⟨m1, m2, m3, m4⟩ := updateHistogramMetrics_frame s v
  rw [insert]
  split_ifs with hfull
  · -- batch + compress path
    set s2 : CKMS := { s.updateHistogramMetrics v with
      buffer := (s.updateHistogramMetrics v).buffer ++ [v] } with hs2
    have hs2sorted : sortedByValue s2.sample := by
      rw [hs2]
      dsimp only
      rw [m2]
      exact hs
    obtain ⟨b1, b2, b3, b4, b5, b6⟩ := insertBatch_spec s2 hs2sorted
    obtain ⟨p1, p2, p3, p4⟩ := compress_spec (s2.insertBatch).1 b1
    obtain ⟨f1, f2, f3, f4, f5, f6, f7, f8⟩ := compress_frame (s2.insertBatch).1
    refine ⟨?_, p1, ?_⟩
    · rw [f1, b2]
      simp
    · rw [p2, f2, b3, b4]
      have hsam : s2.sample = s.sample := by rw [hs2]; dsimp only; exact m2
      have hcnt : s2.count = s.count := by rw [hs2]; dsimp only; exact m1
      rw [hsam, hcnt, hg]
      push_cast
      ring
  · -- plain append path
    refine ⟨?_, ?_, ?_⟩
    · dsimp only
      rw [m3] at hfull ⊢
      simp only [List.length_append, List.length_cons, List.length_nil] at hfull ⊢
      omega
    · dsimp only
      rw [m2]
      exact hs
    · dsimp only
      rw [m2, m1]
      exact hg



theorem get_state (s : CKMS) (q : ℚ) : (s.get q).1 = ((s.insertBatch).1).compress := by
  rw [get]
  split_ifs <;> rfl

theorem inv_get (s : CKMS) (q : ℚ) (h : Inv s) : Inv ((s.get q).1) := by
  obtain ⟨hb, hs, hg⟩ := h
  obtain ⟨b1, b2, b3, b4, b5, b6⟩ := insertBatch_spec s hs
  obtain ⟨p1, p2, p3, p4⟩ := compress_spec (s.insertBatch).1 b1
  obtain ⟨f1, f2, f3, f4, f5, f6, f7, f8⟩ := compress_frame (s.insertBatch).1
  rw [get_state]
  refine ⟨?_, p1, ?_⟩
  · rw [f1, b2]
    simp
  · rw [p2, f2, b3, b4, hg]
    push_cast
    ring

theorem inv_applyOp (s : CKMS) (op : Op) (h : Inv s) : Inv (s.applyOp op) := by
  cases op with
  | ins v => exact inv_insert s v h
  | query q => exact inv_get s q h
  | opReset => exact inv_reset s

theorem inv_runOps (s : CKMS) (ops : List Op) (h : Inv s) : Inv (s.runOps ops) := by
  induction ops generalizing s with
  | nil => exact h
  | cons op rest ih => exact ih _ (inv_applyOp s op h)

theorem inv_reachable (s : CKMS) (h : Reachable s) : Inv s := by
  obtain ⟨qs, ops, rfl⟩ := h
  exact inv_runOps _ ops (inv_new qs)

theorem countTotal_insert (s : CKMS) (v : ℚ) (h : Inv s) :
    (s.insert v).countTotal = s.countTotal + 1 := by
  obtain ⟨hb, hs, hg⟩ := h
  obtain ⟨m1, m2, m3, m4⟩ := updateHistogramMetrics_frame s v
  rw [insert]
  split_ifs with hfull
  · set s2 : CKMS := { s.updateHistogramMetrics v with
      buffer := (s.updateHistogramMetrics v).buffer ++ [v] } with hs2
    have hs2sorted : sortedByValue s2.sample := by
      rw [hs2]; dsimp only; rw [m2]; exact hs
    obtain ⟨b1, b2, b3, b4, b5, b6⟩ := insertBatch_spec s2 hs2sorted
    obtain ⟨f1, f2, f3, f4, f5, f6, f7, f8⟩ := compress_frame (s2.insertBatch).1
    rw [countTotal, f1, f2, b2, b3]
    have hsam : s2.buffer = s.buffer ++ [v] := by rw [hs2]; dsimp only; rw [m3]
    have hcnt : s2.count = s.count := by rw [hs2]; dsimp only; exact m1
    rw [hsam, hcnt, countTotal]
    simp only [List.length_append, List.length_cons, List.length_nil]
    omega
  · rw [countTotal, countTotal]
    dsimp only
    rw [m1, m3]
    simp
    omega

theorem countTotal_runInserts (vs : List ℚ) : ∀ (s : CKMS), Inv s →
    (runInserts s vs).countTotal = s.countTotal + vs.length := by
  induction vs with
  | nil => intro s _; simp [runInserts]
  | cons v rest ih =>
    intro s h
    have h1 := countTotal_insert s v h
    have h2 := ih (s.insert v) (inv_insert s v h)
    rw [runInserts] at h2 ⊢
    rw [List.foldl_cons, h2, h1]
    simp only [List.length_cons]
    omega

theorem getLoop_mem (bound : ℚ) :
    ∀ (rest : List Item) (rankMin : ℤ) (cur : Item),
      getLoop bound rankMin cur rest ∈ valuesOf (cur :: rest) := by
  intro rest
  induction rest with
  | nil => intro rankMin cur; simp [getLoop, valuesOf]
  | cons c rest2 ih =>
    intro rankMin cur
    rw [getLoop]
    split_ifs with hc
    · simp [valuesOf]
    · have := ih (rankMin + cur.g) c
      simp only [valuesOf, List.map_cons, List.mem_cons] at this ⊢
      tauto

theorem get_value_mem (s : CKMS) (q : ℚ) (hinv : Inv s) (hne : s.countTotal ≠ 0) :
    (s.get q).2 ∈ valuesOf s.sample ∨ (s.get q).2 ∈ s.buffer := by
  obtain ⟨hb, hs, hg⟩ := hinv
  obtain ⟨b1, b2, b3, b4, b5, b6⟩ := insertBatch_spec s hs
  obtain ⟨p1, p2, p3, p4⟩ := compress_spec (s.insertBatch).1 b1
  have hbatchne : (s.insertBatch).1.sample ≠ [] := by
    intro h0
    rw [h0] at b5
    simp only [List.length_nil] at b5
    have hsam : s.sample.length = 0 := by omega
    have hbuf0 : s.buffer.length = 0 := by omega
    have hsamnil : s.sample = [] := List.length_eq_zero.mp hsam
    have hcnt : s.count = 0 := by
      rw [hsamnil] at hg
      simp [gsum] at hg
      omega
    exact hne (by rw [countTotal]; omega)
  have hcomp_ne := p4 hbatchne
  obtain ⟨a, t, hat⟩ := List.exists_cons_of_ne_nil hcomp_ne
  have hval : (s.get q).2 ∈ valuesOf ((s.insertBatch).1.compress).sample := by
    rw [get]
    split_ifs with hlen0
    · exact absurd (List.length_eq_zero.mp hlen0) hcomp_ne
    · dsimp only
      rw [hat]
      simp only [List.headI_cons, List.tail_cons]
      exact getLoop_mem _ t 0 a
  rcases b6 _ (p3 _ hval) with h | h
  · exact Or.inl h
  · exact Or.inr h

theorem insert_values (s0 : CKMS) (v : ℚ) (hinv : Inv s0) :
    (∀ x, x ∈ valuesOf (s0.insert v).sample →
      x ∈ valuesOf s0.sample ∨ x ∈ s0.buffer ∨ x = v) ∧
    (∀ x, x ∈ (s0.insert v).buffer → x ∈ s0.buffer ∨ x = v) := by
  obtain ⟨hb, hs, hg⟩ := hinv
  obtain ⟨m1, m2, m3, m4⟩ := updateHistogramMetrics_frame s0 v
  rw [insert]
  split_ifs with hfull
  · set s2 : CKMS := { s0.updateHistogramMetrics v with
      buffer := (s0.updateHistogramMetrics v).buffer ++ [v] } with hs2
    have hsam2 : s2.sample = s0.sample := by rw [hs2]; dsimp only; exact m2
    have hbuf2 : s2.buffer = s0.buffer ++ [v] := by rw [hs2]; dsimp only; rw [m3]
    have hs2sorted : sortedByValue s2.sample := by rw [hsam2]; exact hs
    obtain ⟨b1, b2, b3, b4, b5, b6⟩ := insertBatch_spec s2 hs2sorted
    obtain ⟨p1, p2, p3, p4⟩ := compress_spec (s2.insertBatch).1 b1
    obtain ⟨f1, f2, f3, f4, f5, f6, f7, f8⟩ := compress_frame (s2.insertBatch).1
    constructor
    · intro x hx
      rcases b6 x (p3 x hx) with h1 | h2
      · left
        rw [hsam2] at h1
        exact h1
      · rw [hbuf2] at h2
        rcases List.mem_append.mp h2 with h3 | h3
        · right; left; exact h3
        · right; right; exact List.mem_singleton.mp h3
    · intro x hx
      rw [f1, b2] at hx
      exact absurd hx (List.not_mem_nil x)
  · constructor
    · intro x hx
      dsimp only at hx
      rw [m2] at hx
      exact Or.inl hx
    · intro x hx
      dsimp only at hx
      rw [m3] at hx
      rcases List.mem_append.mp hx with h3 | h3
      · exact Or.inl h3
      · exact Or.inr (List.mem_singleton.mp h3)

theorem runInserts_values (vs : List ℚ) : ∀ (s0 : CKMS), Inv s0 →
    (∀ x, x ∈ valuesOf (runInserts s0 vs).sample →
      x ∈ valuesOf s0.sample ∨ x ∈ s0.buffer ∨ x ∈ vs) ∧
    (∀ x, x ∈ (runInserts s0 vs).buffer →
      x ∈ s0.buffer ∨ x ∈ vs) := by
  induction vs with
  | nil =>
    intro s0 _
    exact ⟨fun x hx => Or.inl hx, fun x hx => Or.inl hx⟩
  | cons v rest ih =>
    intro s0 hinv
    obtain ⟨ih1, ih2⟩ := ih (s0.insert v) (inv_insert s0 v hinv)
    obtain ⟨j1, j2⟩ := insert_values s0 v hinv
    constructor
    · intro x hx
      rw [runInserts, List.foldl_cons] at hx
      rcases ih1 x hx with h | h | h
      · rcases j1 x h with h2 | h2 | h2
        · exact Or.inl h2
        · exact Or.inr (Or.inl h2)
        · exact Or.inr (Or.inr (h2 ▸ List.mem_cons_self _ _))
      · rcases j2 x h with h2 | h2
        · exact Or.inr (Or.inl h2)
        · exact Or.inr (Or.inr (h2 ▸ List.mem_cons_self _ _))
      · exact Or.inr (Or.inr (List.mem_cons_of_mem v h))
    · intro x hx
      rw [runInserts, List.foldl_cons] at hx
      rcases ih2 x hx with h | h
      · rcases j2 x h with h2 | h2
        · exact Or.inl h2
        · exact Or.inr (h2 ▸ List.mem_cons_self _ _)
      · exact Or.inr (List.mem_cons_of_mem v h)

theorem insert_aggregates (s : CKMS) (v : ℚ) :
    (s.insert v).min = (s.updateHistogramMetrics v).min ∧
    (s.insert v).max = (s.updateHistogramMetrics v).max ∧
    (s.insert v).sum = (s.updateHistogramMetrics v).sum := by
  rw [insert]
  split_ifs with h
  · obtain ⟨f1, f2, f3, f4, f5, f6, f7, f8⟩ := compress_frame
      ({ s.updateHistogramMetrics v with
        buffer := (s.updateHistogramMetrics v).buffer ++ [v] }.insertBatch).1
    obtain ⟨g1, g2, g3, g4, g5, g6⟩ := insertBatch_frame
      { s.updateHistogramMetrics v with
        buffer := (s.updateHistogramMetrics v).buffer ++ [v] }
    exact ⟨by rw [f4, g2], by rw [f5, g3], by rw [f6, g4]⟩
  · exact ⟨rfl, rfl, rfl⟩

theorem listMin_append_singleton (l : List ℚ) (v : ℚ) :
    listMin (l ++ [v]) = if l = [] then v else Min.min (listMin l) v := by
  cases l with
  | nil => simp [listMin]
  | cons h t =>
    simp only [List.cons_append, listMin, List.foldl_append, List.foldl_cons,
      List.foldl_nil]
    rw [if_neg (by simp)]

theorem listMax_append_singleton (l : List ℚ) (v : ℚ) :
    listMax (l ++ [v]) = if l = [] then v else Max.max (listMax l) v := by
  cases l with
  | nil => simp [listMax]
  | cons h t =>
    simp only [List.cons_append, listMax, List.foldl_append, List.foldl_cons,
      List.foldl_nil]
    rw [if_neg (by simp)]

theorem aggRun (vs : List ℚ) : ∀ (s : CKMS) (seen : List ℚ), Inv s →
    s.countTotal = seen.length →
    (seen ≠ [] → s.min = listMin seen ∧ s.max = listMax seen ∧ s.sum = seen.sum) →
    (runInserts s vs).countTotal = seen.length + vs.length ∧
    (seen ++ vs ≠ [] →
      (runInserts s vs).min = listMin (seen ++ vs) ∧
      (runInserts s vs).max = listMax (seen ++ vs) ∧
      (runInserts s vs).sum = (seen ++ vs).sum) := by
  induction vs with
  | nil =>
    intro s seen hinv hc hagg
    refine ⟨by simp [runInserts, hc], ?_⟩
    intro hne
    rw [List.append_nil] at hne ⊢
    exact hagg hne
  | cons v rest ih =>
    intro s seen hinv hc hagg
    obtain ⟨a1, a2, a3⟩ := insert_aggregates s v
    obtain ⟨u0, u1⟩ := updateHistogramMetrics_aggregates s v
    have hcnt : (s.insert v).countTotal = seen.length + 1 := by
      rw [countTotal_insert s v hinv, hc]
    have hagg' : seen ++ [v] ≠ [] → (s.insert v).min = listMin (seen ++ [v]) ∧
        (s.insert v).max = listMax (seen ++ [v]) ∧
        (s.insert v).sum = (seen ++ [v]).sum := by
      intro _
      by_cases hseen : seen = []
      · subst hseen
        have hc0 : s.countTotal = 0 := by simpa using hc
        obtain ⟨w1, w2, w3⟩ := u0 hc0
        refine ⟨?_, ?_, ?_⟩
        · rw [a1, w1]; simp [listMin]
        · rw [a2, w2]; simp [listMax]
        · rw [a3, w3]; simp
      · have hcne : s.countTotal ≠ 0 := by
          rw [hc]
          intro h0
          exact hseen (List.length_eq_zero.mp h0)
        obtain ⟨w1, w2, w3⟩ := u1 hcne
        obtain ⟨e1, e2, e3⟩ := hagg hseen
        refine ⟨?_, ?_, ?_⟩
        · rw [a1, w1, e1, listMin_append_singleton, if_neg hseen]
        · rw [a2, w2, e2, listMax_append_singleton, if_neg hseen]
        · rw [a3, w3, e3]; simp
    obtain ⟨r1, r2⟩ := ih (s.insert v) (seen ++ [v]) (inv_insert s v hinv)
      (by rw [hcnt]; simp) hagg'
    constructor
    · rw [runInserts, List.foldl_cons]
      rw [runInserts] at r1
      rw [r1]
      simp only [List.length_append, List.length_cons, List.length_nil]
      omega
    · intro hne
      rw [runInserts, List.foldl_cons]
      have hassoc : (seen ++ [v]) ++ rest = seen ++ (v :: rest) := by simp
      rw [← hassoc]
      exact r2 (by simp)

theorem c7_helper (s0 : CKMS) (vs : List ℚ)
    (hc : s0.count = 0) (hbuf : s0.buffer = []) (hsam : s0.sample = []) :
    (runInserts s0 vs).countTotal = vs.length ∧
    (vs ≠ [] →
      (runInserts s0 vs).minValue = listMin vs ∧
      (runInserts s0 vs).maxValue = listMax vs ∧
      (runInserts s0 vs).sumValue = vs.sum) := by
  have hinv : Inv s0 := by
    refine ⟨by simp [hbuf], by simp [hsam, sortedByValue, valuesOf], ?_⟩
    rw [hsam, hc]
    simp [gsum]
  have hct : s0.countTotal = 0 := by rw [countTotal, hc, hbuf]; simp
  obtain ⟨r1, r2⟩ := aggRun vs s0 [] hinv (by simpa using hct) (by intro h; exact absurd rfl h)
  refine ⟨by simpa using r1, ?_⟩
  intro hne
  obtain ⟨e1, e2, e3⟩ := r2 (by simpa using hne)
  simp only [List.nil_append] at e1 e2 e3
  exact ⟨e1, e2, e3⟩


theorem inv_runInserts (vs : List ℚ) : ∀ (s : CKMS), Inv s → Inv (runInserts s vs) := by
  induction vs with
  | nil => intro s h; exact h
  | cons v rest ih =>
    intro s h
    rw [runInserts, List.foldl_cons]
    exact ih (s.insert v) (inv_insert s v h)

theorem sortStream_replicate (n : ℕ) (v : ℚ) :
    sortStream (List.replicate n v) = List.replicate n v := by
  apply List.Sorted.insertionSort_eq
  exact List.pairwise_replicate.mpr (Or.inr (le_refl v))

theorem mem_trueRanks_replicate (n : ℕ) (v : ℚ) (r : ℕ)
    (h1 : 1 ≤ r) (h2 : r ≤ n) : r ∈ trueRanks (List.replicate n v) v := by
  rw [trueRanks, List.mem_filterMap]
  refine ⟨r - 1, ?_, ?_⟩
  · rw [List.mem_range, List.length_replicate]
    omega
  · rw [sortStream_replicate]
    have hlt : r - 1 < n := by omega
    rw [List.getD_eq_getElem _ _ (by simpa using hlt)]
    simp only [List.getElem_replicate, if_pos rfl]
    rw [Nat.sub_add_cancel h1]
    simp

theorem runInserts_value_mem (qs : List Quantile) (stream : List ℚ) (q : ℚ)
    (hne : stream ≠ []) :
    getValue (runInserts (new qs) stream) q ∈ stream := by
  have hinv : Inv (runInserts (new qs) stream) :=
    inv_runInserts stream (new qs) (inv_new qs)
  have hcnt : (runInserts (new qs) stream).countTotal = stream.length := by
    rw [countTotal_runInserts stream (new qs) (inv_new qs)]
    simp [new, countTotal]
  have hne0 : (runInserts (new qs) stream).countTotal ≠ 0 := by
    rw [hcnt]
    intro h0
    exact hne (List.length_eq_zero.mp h0)
  have hmem := get_value_mem (runInserts (new qs) stream) q hinv hne0
  obtain ⟨v1, v2⟩ := runInserts_values stream (new qs) (inv_new qs)
  rw [getValue]
  rcases hmem with h | h
  · rcases v1 _ h with h2 | h2 | h2
    · simp [new, valuesOf] at h2
    · simp [new] at h2
    · exact h2
  · rcases v2 _ h with h2 | h2
    · simp [new] at h2
    · exact h2

end CKMS


/-! ### Claims about the sketch invariants and aggregates -/

/-- C5:  after any sequence of public operations, the sum of the g fields
over the sample sequence equals count() minus buffer_count_, i.e. equals the
internal merged-observation counter count_. -/
theorem c5_sum_g_eq_count (s : CKMS) (h : CKMS.Reachable s) :
    CKMS.gsum s.sample = (s.countTotal : ℤ) - s.buffer.length ∧
    CKMS.gsum s.sample = (s.count : ℤ) := by
  obtain ⟨hb, hs, hg⟩ := CKMS.inv_reachable s h
  refine ⟨?_, hg⟩
  rw [CKMS.countTotal, hg]
  push_cast
  ring

/-- Witness for c5_sum_g_eq_count at a concrete reachable state. -/
theorem c5_sum_g_eq_count_witness :
    CKMS.gsum (CKMS.runOps (CKMS.new kDefaultQuantiles)
        [.ins 2, .ins 1, .query (1/2), .ins 5]).sample =
      ((CKMS.runOps (CKMS.new kDefaultQuantiles)
        [.ins 2, .ins 1, .query (1/2), .ins 5]).countTotal : ℤ) -
      (CKMS.runOps (CKMS.new kDefaultQuantiles)
        [.ins 2, .ins 1, .query (1/2), .ins 5]).buffer.length ∧
    CKMS.gsum (CKMS.runOps (CKMS.new kDefaultQuantiles)
        [.ins 2, .ins 1, .query (1/2), .ins 5]).sample =
      ((CKMS.runOps (CKMS.new kDefaultQuantiles)
        [.ins 2, .ins 1, .query (1/2), .ins 5]).count : ℤ) :=
  c5_sum_g_eq_count _ ⟨kDefaultQuantiles, [.ins 2, .ins 1, .query (1/2), .ins 5], rfl⟩

/-- C6:  after every public sketch operation the sample sequence is sorted
nondecreasing by value:  each adjacent pair of entries has the earlier value
at most the later value. -/
theorem c6_sample_sorted (s : CKMS) (h : CKMS.Reachable s) :
    s.sample.Chain' (fun a b => a.value ≤ b.value) := by
  have hs := (CKMS.inv_reachable s h).2.1
  rw [CKMS.sortedByValue, CKMS.valuesOf, List.pairwise_map] at hs
  exact List.Pairwise.chain' hs

/-- Witness for c6_sample_sorted at a concrete reachable state. -/
theorem c6_sample_sorted_witness :
    (CKMS.runOps (CKMS.new kDefaultQuantiles)
        [.ins 3, .ins 1, .query (1/2), .ins 2]).sample.Chain'
      (fun a b => a.value ≤ b.value) :=
  c6_sample_sorted _ ⟨kDefaultQuantiles, [.ins 3, .ins 1, .query (1/2), .ins 2], rfl⟩

/-- C8:  the pending buffer never overflows:  in every reachable state
buffer_count_ is strictly below the capacity 500 (so the write
buffer_[buffer_count_] of the next insert is in bounds), and an insert that
makes the buffer reach exactly 500 runs exactly one insertBatch followed by
one compress on the filled state, leaving the buffer empty. -/
theorem c8_buffer_bounded (s : CKMS) (h : CKMS.Reachable s) (v : ℚ) :
    s.buffer.length < 500 ∧
    (s.buffer.length = 499 →
      s.insert v =
        ({ s.updateHistogramMetrics v with
            buffer := (s.updateHistogramMetrics v).buffer ++ [v] }.insertBatch).1.compress ∧
      (s.insert v).buffer = []) := by
  have hinv := CKMS.inv_reachable s h
  refine ⟨hinv.1, ?_⟩
  intro h499
  obtain ⟨m1, m2, m3, m4⟩ := CKMS.updateHistogramMetrics_frame s v
  have hfull : ({ s.updateHistogramMetrics v with
      buffer := (s.updateHistogramMetrics v).buffer ++ [v] } : CKMS).buffer.length = 500 := by
    dsimp only
    rw [m3]
    simp only [List.length_append, List.length_cons, List.length_nil]
    omega
  have heq : s.insert v =
      ({ s.updateHistogramMetrics v with
          buffer := (s.updateHistogramMetrics v).buffer ++ [v] }.insertBatch).1.compress := by
    rw [CKMS.insert, if_pos hfull]
  refine ⟨heq, ?_⟩
  rw [heq]
  have hs2sorted : CKMS.sortedByValue ({ s.updateHistogramMetrics v with
      buffer := (s.updateHistogramMetrics v).buffer ++ [v] } : CKMS).sample := by
    dsimp only
    rw [m2]
    exact hinv.2.1
  obtain ⟨b1, b2, b3, b4, b5, b6⟩ := CKMS.insertBatch_spec _ hs2sorted
  obtain ⟨f1, f2, f3, f4, f5, f6, f7, f8⟩ := CKMS.compress_frame
    (({ s.updateHistogramMetrics v with
        buffer := (s.updateHistogramMetrics v).buffer ++ [v] } : CKMS).insertBatch).1
  rw [f1, b2]

/-- Witness for c8_buffer_bounded at a concrete reachable state. -/
theorem c8_buffer_bounded_witness :
    (CKMS.new kDefaultQuantiles).buffer.length < 500 ∧
    ((CKMS.new kDefaultQuantiles).buffer.length = 499 →
      (CKMS.new kDefaultQuantiles).insert 7 =
        ({ (CKMS.new kDefaultQuantiles).updateHistogramMetrics 7 with
            buffer := ((CKMS.new kDefaultQuantiles).updateHistogramMetrics 7).buffer ++ [7] }.insertBatch).1.compress ∧
      ((CKMS.new kDefaultQuantiles).insert 7).buffer = []) :=
  c8_buffer_bounded _ ⟨kDefaultQuantiles, [], rfl⟩ 7

/-- C7:  for any sequence of inserts from a state with zero merged count, an
empty buffer and an empty sample (a freshly constructed or freshly reset
sketch, whatever the initial contents of its uninitialised aggregate
fields), count() returns the number of inserts, and min(), max() and sum()
return the true aggregates of the inserted values, regardless of how many
values still sit in the pending buffer. -/
theorem c7_aggregates (s0 : CKMS) (vs : List ℚ)
    (hc : s0.count = 0) (hbuf : s0.buffer = []) (hsam : s0.sample = []) :
    (CKMS.runInserts s0 vs).countTotal = vs.length ∧
    (vs ≠ [] →
      (CKMS.runInserts s0 vs).minValue = listMin vs ∧
      (CKMS.runInserts s0 vs).maxValue = listMax vs ∧
      (CKMS.runInserts s0 vs).sumValue = vs.sum) :=
  CKMS.c7_helper s0 vs hc hbuf hsam

/-- Witness for c7_aggregates on a concrete stream, with a nonzero garbage
value in the uninitialised aggregate fields. -/
theorem c7_aggregates_witness :
    (CKMS.runInserts { CKMS.new kDefaultQuantiles with min := 77, max := -77, sum := 9 }
        [3, 1, 2]).countTotal = ([3, 1, 2] : List ℚ).length ∧
    ((CKMS.runInserts { CKMS.new kDefaultQuantiles with min := 77, max := -77, sum := 9 }
        [3, 1, 2]).minValue = listMin [3, 1, 2] ∧
      (CKMS.runInserts { CKMS.new kDefaultQuantiles with min := 77, max := -77, sum := 9 }
        [3, 1, 2]).maxValue = listMax [3, 1, 2] ∧
      (CKMS.runInserts { CKMS.new kDefaultQuantiles with min := 77, max := -77, sum := 9 }
        [3, 1, 2]).sumValue = ([3, 1, 2] : List ℚ).sum) :=
  ⟨(c7_aggregates _ [3, 1, 2] rfl rfl rfl).1,
   (c7_aggregates _ [3, 1, 2] rfl rfl rfl).2 (by decide)⟩


/-! ### Claims about the insertion delta rule and the approximation bound -/

open CKMS in
unseal Rat.add Rat.mul Rat.sub Rat.inv Rat.ofScientific scanIdx compressLoop in
/-- C3, counterexample:  a buffered value inserted at the first position of
the sample sequence does not receive δ = 0.  With the single target
(0.5, 0.1), inserting 2, 3, 4, draining with get, then inserting 1 leaves
S = [(2,1,0), (3,1,0), (4,1,2)] with 1 pending; the following insertBatch
inserts 1 at position idx = 0 (the first position of S) and assigns it
δ = ⌊f(1)⌋ + 1 = 1, not 0, because the C++ left-boundary test idx - 1 == 0
over size_t holds only for idx == 1. -/
theorem c3_counterexample :
    (((CKMS.runInserts (CKMS.new [⟨1/2, 1/10⟩]) [2, 3, 4]).get (1/2)).1.insert 1).sample
        = [⟨2, 1, 0⟩, ⟨3, 1, 0⟩, ⟨4, 1, 2⟩] ∧
    (((CKMS.runInserts (CKMS.new [⟨1/2, 1/10⟩]) [2, 3, 4]).get (1/2)).1.insert 1).buffer = [1] ∧
    ((((CKMS.runInserts (CKMS.new [⟨1/2, 1/10⟩]) [2, 3, 4]).get (1/2)).1.insert 1).insertBatch).1.sample
        = [⟨1, 1, 1⟩, ⟨2, 1, 0⟩, ⟨3, 1, 0⟩, ⟨4, 1, 2⟩] := by
  refine ⟨by decide, by decide, by decide⟩

/-- C3, amended:  during insertBatch every buffered value v is inserted with
g = 1 at the position p the cursor scan determines (the sorted insertion
position:  values before p are at most v, values from p on are at least v),
and its δ is assigned 0 exactly by the rule p = 1 or p + 1 = the sample
length before insertion (the C++ left-boundary test idx - 1 == 0 over
std::size_t, which holds for idx == 1 and not for the first position
idx == 0), and δ = ⌊f(p+1)⌋ + 1 otherwise. -/
theorem c3_delta_rule (qs : List Quantile) (st : CKMS.BatchState) (v : ℚ)
    (hsort : CKMS.sortedByValue st.sample)
    (hii : st.item + 1 = st.idx) (hidx : st.idx ≤ st.sample.length)
    (hctx : ∀ j, j < st.item → (CKMS.getItem st.sample j).value ≤ v) :
    ∃ p δ, p ≤ st.sample.length ∧
      CKMS.insertOne qs st v = ⟨st.sample.insertIdx p ⟨v, 1, δ⟩, st.count + 1, p, p + 1⟩ ∧
      (∀ j, j < p → (CKMS.getItem st.sample j).value ≤ v) ∧
      (∀ j, p ≤ j → j < st.sample.length → v ≤ (CKMS.getItem st.sample j).value) ∧
      ((p = 1 ∨ p + 1 = st.sample.length) → δ = 0) ∧
      (¬(p = 1 ∨ p + 1 = st.sample.length) →
        δ = ⌊CKMS.allowableErrorL qs st.sample.length ((p : ℤ) + 1)⌋ + 1) :=
  CKMS.insertOne_spec qs st v hsort hii hidx hctx

open CKMS in
unseal Rat.add Rat.mul Rat.sub Rat.inv Rat.ofScientific scanIdx compressLoop in
/-- Witness for c3_delta_rule at the concrete state of c3_counterexample. -/
theorem c3_delta_rule_witness :
    ∃ p δ, p ≤ ([⟨2, 1, 0⟩, ⟨3, 1, 0⟩, ⟨4, 1, 2⟩] : List Item).length ∧
      CKMS.insertOne [⟨1/2, 1/10⟩] ⟨[⟨2, 1, 0⟩, ⟨3, 1, 0⟩, ⟨4, 1, 2⟩], 3, 0, 1⟩ 1 =
        ⟨([⟨2, 1, 0⟩, ⟨3, 1, 0⟩, ⟨4, 1, 2⟩] : List Item).insertIdx p ⟨1, 1, δ⟩, 3 + 1, p, p + 1⟩ ∧
      (∀ j, j < p →
        (CKMS.getItem [⟨2, 1, 0⟩, ⟨3, 1, 0⟩, ⟨4, 1, 2⟩] j).value ≤ 1) ∧
      (∀ j, p ≤ j → j < ([⟨2, 1, 0⟩, ⟨3, 1, 0⟩, ⟨4, 1, 2⟩] : List Item).length →
        (1 : ℚ) ≤ (CKMS.getItem [⟨2, 1, 0⟩, ⟨3, 1, 0⟩, ⟨4, 1, 2⟩] j).value) ∧
      ((p = 1 ∨ p + 1 = ([⟨2, 1, 0⟩, ⟨3, 1, 0⟩, ⟨4, 1, 2⟩] : List Item).length) → δ = 0) ∧
      (¬(p = 1 ∨ p + 1 = ([⟨2, 1, 0⟩, ⟨3, 1, 0⟩, ⟨4, 1, 2⟩] : List Item).length) →
        δ = ⌊CKMS.allowableErrorL [⟨1/2, 1/10⟩]
          ([⟨2, 1, 0⟩, ⟨3, 1, 0⟩, ⟨4, 1, 2⟩] : List Item).length ((p : ℤ) + 1)⌋ + 1) :=
  c3_delta_rule [⟨1/2, 1/10⟩] ⟨[⟨2, 1, 0⟩, ⟨3, 1, 0⟩, ⟨4, 1, 2⟩], 3, 0, 1⟩ 1
    (by decide) (by decide) (by decide)
    (by intro j hj; simp at hj)

open CKMS in
unseal Rat.add Rat.mul Rat.sub Rat.inv Rat.ofScientific scanIdx compressLoop in
/-- C1, counterexample:  the claimed bound on the true rank r of get(q),
with |r - q·N| at most ε·N, fails already for the three-element constant
stream 5, 5, 5 under the default targets:  get(0.5) returns 5, the true
ranks of 5 are 1, 2 and 3, and none of them is within ε·N = 0.003 of
q·N = 1.5 (no integer rank can be). -/
theorem c1_counterexample :
    CKMS.getValue (CKMS.runInserts (CKMS.new kDefaultQuantiles) [5, 5, 5]) (1/2) = 5 ∧
    (⟨1/2, 1/1000⟩ : Quantile) ∈ kDefaultQuantiles ∧
    ¬ ∃ r ∈ trueRanks [5, 5, 5] 5, |(r : ℚ) - (1/2) * 3| ≤ (1/1000) * 3 := by
  refine ⟨by decide, by decide, by decide⟩

open CKMS in
/-- C1, amended:  for every nonempty stream, get(q) returns one of the
observed values (so it has a true rank in the sorted stream); and for a
constant stream of N observations, for every configured target (q, ε) with
0 < q ≤ 1 and 0 ≤ ε, the returned value has a true rank r with
|r - q·N| ≤ ε·N + 1 (the bound of the original claim relaxed by one rank,
which integrality of ranks forces).  The unrelaxed bound ε·N fails even on
constant streams, and the relaxed bound does not hold for arbitrary
streams:  with targets {(1, 0.001), (0.5, 0.5)} and the stream 1..600 the
code returns 598 for q = 1, a rank error of 2 > ε·N + 1 = 1.6. -/
theorem c1_approximation (qs : List Quantile) (stream : List ℚ) (q : ℚ)
    (hne : stream ≠ []) :
    CKMS.getValue (CKMS.runInserts (CKMS.new qs) stream) q ∈ stream ∧
    (∀ v N, stream = List.replicate N v →
      ∀ qt, qt ∈ qs → 0 < qt.quantile → qt.quantile ≤ 1 → 0 ≤ qt.error →
        ∃ r, r ∈ trueRanks stream
            (CKMS.getValue (CKMS.runInserts (CKMS.new qs) stream) qt.quantile) ∧
          |(r : ℚ) - qt.quantile * N| ≤ qt.error * N + 1) := by
  refine ⟨CKMS.runInserts_value_mem qs stream q hne, ?_⟩
  intro v N hrep qt hqt hq0 hq1 he0
  subst hrep
  have hval : CKMS.getValue (CKMS.runInserts (CKMS.new qs) (List.replicate N v))
      qt.quantile = v :=
    List.eq_of_mem_replicate (CKMS.runInserts_value_mem qs _ qt.quantile hne)
  have hN : 1 ≤ N := by
    rcases Nat.eq_zero_or_pos N with h0 | h1
    · subst h0; simp at hne
    · exact h1
  have hNq : (0 : ℚ) < N := by
    exact_mod_cast hN
  have hx0 : 0 < qt.quantile * (N : ℚ) := mul_pos hq0 hNq
  have hceil1 : 1 ≤ ⌈qt.quantile * (N : ℚ)⌉ := Int.ceil_pos.mpr hx0
  have hceilN : ⌈qt.quantile * (N : ℚ)⌉ ≤ (N : ℤ) := Int.ceil_le.mpr (by
    calc qt.quantile * (N : ℚ) ≤ 1 * N := by
          apply mul_le_mul_of_nonneg_right hq1 (le_of_lt hNq)
    _ = ((N : ℤ) : ℚ) := by push_cast; ring)
  have hrcast : ((⌈qt.quantile * (N : ℚ)⌉.toNat : ℤ)) = ⌈qt.quantile * (N : ℚ)⌉ :=
    Int.toNat_of_nonneg (by omega)
  refine ⟨⌈qt.quantile * (N : ℚ)⌉.toNat, ?_, ?_⟩
  · rw [hval]
    apply CKMS.mem_trueRanks_replicate
    · omega
    · omega
  · have h1 : ((⌈qt.quantile * (N : ℚ)⌉.toNat : ℕ) : ℚ) =
        ((⌈qt.quantile * (N : ℚ)⌉ : ℤ) : ℚ) := by
      exact_mod_cast congrArg (fun z : ℤ => (z : ℚ)) hrcast
    rw [h1]
    have hu : ((⌈qt.quantile * (N : ℚ)⌉ : ℤ) : ℚ) - qt.quantile * N ≤ 1 := by
      have := Int.ceil_lt_add_one (qt.quantile * (N : ℚ))
      push_cast at this ⊢
      linarith
    have hl : 0 ≤ ((⌈qt.quantile * (N : ℚ)⌉ : ℤ) : ℚ) - qt.quantile * N := by
      have := Int.le_ceil (qt.quantile * (N : ℚ))
      linarith
    have hen : 0 ≤ qt.error * (N : ℚ) := mul_nonneg he0 (le_of_lt hNq)
    rw [abs_le]
    constructor <;> linarith

open CKMS in
unseal Rat.add Rat.mul Rat.sub Rat.inv Rat.ofScientific scanIdx compressLoop in
/-- Witness for c1_approximation on the constant stream 9, 9 with the
default targets and the configured target (0.5, 0.001). -/
theorem c1_approximation_witness :
    CKMS.getValue (CKMS.runInserts (CKMS.new kDefaultQuantiles) [9, 9]) (1/2) ∈
        ([9, 9] : List ℚ) ∧
    ∃ r, r ∈ trueRanks [9, 9]
        (CKMS.getValue (CKMS.runInserts (CKMS.new kDefaultQuantiles) [9, 9])
          (⟨1/2, 1/1000⟩ : Quantile).quantile) ∧
      |(r : ℚ) - (⟨1/2, 1/1000⟩ : Quantile).quantile * (2 : ℕ)| ≤
        (⟨1/2, 1/1000⟩ : Quantile).error * (2 : ℕ) + 1 :=
  ⟨(c1_approximation kDefaultQuantiles [9, 9] (1/2) (by decide)).1,
   (c1_approximation kDefaultQuantiles [9, 9] (1/2) (by decide)).2 9 2 (by decide)
     ⟨1/2, 1/1000⟩ (by decide) (by decide) (by decide) (by decide)⟩

end Medida
